import Mathlib

/-!
Shallow embedding of the peek-poke display-list example (src/src/main.rs).

The program serialises tagged records (display items) into a flat byte
buffer with the peek_poke crate, appends red-zone padding so the decoder
can detect end-of-stream, and decodes the buffer on a worker thread.

Modelling conventions:
* a byte buffer is a List Nat (each produced byte is < 256, little-endian
  multi-byte fields, usize = 8 bytes as on the 64-bit target);
* f32 fields are carried as their 32-bit IEEE-754 bit patterns (the
  program never computes with the floats, it only moves their bytes);
* the derived PeekPoke codec writes a 32-bit variant tag followed by the
  variant's fields, and max_size is the tag size plus the largest
  variant payload (a union, not a sum) - this codec lives in the external
  peek_poke crate, modelled here from the spec's description of the
  record codec (spec section 4.1);
* fallible reads (peeking past the end of a slice, an unknown tag, an
  out-of-range split_at) return Option.none / StepResult.fault where the
  Rust program would read out of bounds or panic.
-/

/-- A byte buffer: the Vec of u8 of the Rust program. -/
abbrev Bytes := List Nat

/-- Little-endian encoding of a value into exactly w bytes
(the low w bytes of the value, as poking a machine integer does). -/
def natToLE : Nat → Nat → Bytes
  | 0, _ => []
  | w + 1, v => v % 256 :: natToLE w (v / 256)

/-- Little-endian value of a byte list. -/
def leToNat : Bytes → Nat
  | [] => 0
  | b :: bs => b + 256 * leToNat bs

/-- Read w little-endian bytes from the front of a slice, returning the
value and the remaining slice; Option.none when fewer than w bytes remain
(the Rust peek would read out of bounds there). -/
def peekBytes : Nat → Bytes → Option (Nat × Bytes)
  | 0, data => some (0, data)
  | _ + 1, [] => Option.none
  | w + 1, b :: rest =>
    (peekBytes w rest).map (fun vr => (b + 256 * vr.1, vr.2))

/-- RectItem: min and max are 2-D f32 points, stored as bit patterns. -/
structure RectItem where
  minX : Nat
  minY : Nat
  maxX : Nat
  maxY : Nat
  deriving DecidableEq

/-- The closed tagged union of display items. -/
inductive DisplayListItem
  | rect (r : RectItem)
  | list
  | listItem
  | none
  deriving DecidableEq

/-- Encoded size of a RectItem: four f32 fields. -/
def RectItem.pokeSize : Nat := 16

/-- Modelled from the spec: max_size of the derived PeekPoke codec, the
32-bit tag plus the largest variant payload (union of all variants'
sizes, not a sum) - spec sections 3 and 4.1; the codec itself is in the
external peek_poke crate, not under src/. -/
def DisplayListItem.maxSize : Nat :=
  4 + Nat.max RectItem.pokeSize (Nat.max 0 (Nat.max 0 0))

/-- Modelled from the spec: encode a RectItem field by field
(fixed layout, spec section 4.1). -/
def RectItem.poke (r : RectItem) : Bytes :=
  natToLE 4 r.minX ++ natToLE 4 r.minY ++ natToLE 4 r.maxX ++ natToLE 4 r.maxY

/-- Modelled from the spec: encode one record as its variant tag followed
by the variant's fields (spec section 4.1). Variant tags follow
declaration order. -/
def DisplayListItem.poke : DisplayListItem → Bytes
  | .rect r => natToLE 4 0 ++ r.poke
  | .list => natToLE 4 1
  | .listItem => natToLE 4 2
  | .none => natToLE 4 3

/-- Modelled from the spec: decode a RectItem field by field. -/
def peekRect (data : Bytes) : Option (RectItem × Bytes) :=
  match peekBytes 4 data with
  | Option.none => Option.none
  | some (a, d1) =>
    match peekBytes 4 d1 with
    | Option.none => Option.none
    | some (b, d2) =>
      match peekBytes 4 d2 with
      | Option.none => Option.none
      | some (c, d3) =>
        match peekBytes 4 d3 with
        | Option.none => Option.none
        | some (d, d4) => some (⟨a, b, c, d⟩, d4)

/-- Modelled from the spec: decode one record - read the tag, then the
fields of the corresponding variant, advancing past them; an unknown tag
is a contract violation (Option.none here, abort in the program). -/
def peekItem (data : Bytes) : Option (DisplayListItem × Bytes) :=
  match peekBytes 4 data with
  | Option.none => Option.none
  | some (tag, rest) =>
    if tag = 0 then
      (peekRect rest).map (fun rr => (DisplayListItem.rect rr.1, rr.2))
    else if tag = 1 then some (DisplayListItem.list, rest)
    else if tag = 2 then some (DisplayListItem.listItem, rest)
    else if tag = 3 then some (DisplayListItem.none, rest)
    else Option.none

/-- ensure_red_zone: append max_size zero bytes of padding. -/
def ensureRedZone (payload : Bytes) : Bytes :=
  payload ++ List.replicate DisplayListItem.maxSize 0

/-- Overwrite the bytes of payload at offset off with the given bytes
(poke_inplace_slice into payload[off..]). -/
def writeAt (payload : Bytes) (off : Nat) (bytes : Bytes) : Bytes :=
  payload.take off ++ bytes ++ payload.drop (off + bytes.length)

/-- DisplayList.push_item: encode one record onto the end of the payload. -/
def pushItem (payload : Bytes) (item : DisplayListItem) : Bytes :=
  payload ++ item.poke

/-- DisplayList.push_iter: reserve an 8-byte byte-size placeholder, write
the item count, encode each item in order, append a red zone for the item
type, then backpatch the placeholder with the span from just after the
placeholder to the end of the red zone. The program only instantiates the
generic item type with DisplayListItem. -/
def pushIter (payload : Bytes) (items : List DisplayListItem) : Bytes :=
  let byteSizeOffset := payload.length
  let p1 := payload ++ natToLE 8 0
  let p2 := p1 ++ natToLE 8 items.length
  let p3 := items.foldl (fun p d => p ++ d.poke) p2
  let p4 := p3 ++ List.replicate DisplayListItem.maxSize 0
  let byteSize := p4.length - byteSizeOffset - 8
  writeAt p4 byteSizeOffset (natToLE 8 byteSize)

/-- DisplayList.push_list: a list-begin marker, then the sublist block. -/
def pushList (payload : Bytes) (items : List DisplayListItem) : Bytes :=
  pushIter (pushItem payload DisplayListItem.list) items

/-- DisplayList.end: seal the stream with a red zone for the top-level
record type. -/
def endList (payload : Bytes) : Bytes :=
  ensureRedZone payload

/-- Outcome of one DisplayListIter::next_payload_as_item call: done is
the red-zone end-of-stream return (None, None); item carries the decoded
record, the optional skip slice and the new remaining view; fault is an
out-of-bounds read or panic in the program. -/
inductive StepResult
  | done
  | item (d : DisplayListItem) (skip : Option Bytes) (rest : Bytes)
  | fault
  deriving DecidableEq

/-- DisplayListIter::next_payload_as_item. The scratch record passed in
is fully overwritten by the peek before it is read, so it does not
appear on the right-hand side. -/
def nextPayloadAsItem (scratch : DisplayListItem) (data : Bytes) : StepResult :=
  if data.length ≤ DisplayListItem.maxSize then .done
  else
    match peekItem data with
    | Option.none => .fault
    | some (d, rest) =>
      match d with
      | .list =>
        match peekBytes 8 rest with
        | Option.none => .fault
        | some (skip, rest') =>
          if skip ≤ rest'.length then
            .item d (some (rest'.take skip)) (rest'.drop skip)
          else .fault
      | _ => .item d Option.none rest

/-- The count read at the head of a skip range in Backend::process:
size starts at 0 and is only peeked when the range is non-empty. -/
def readCount (data : Bytes) : Option (Nat × Bytes) :=
  if data.isEmpty then some (0, data)
  else peekBytes 8 data

/-- The nested loop of Backend::process: decode exactly n items. -/
def decodeN : Nat → Bytes → Option (List DisplayListItem × Bytes)
  | 0, data => some ([], data)
  | n + 1, data =>
    match peekItem data with
    | Option.none => Option.none
    | some (d, rest) =>
      (decodeN n rest).map (fun lr => (d :: lr.1, lr.2))

/-- Backend::process on one skip range: read the count, then decode that
many items (the red zone of the sublist is left unread). -/
def processSkip (data : Bytes) : Option (Nat × List DisplayListItem) :=
  match readCount data with
  | Option.none => Option.none
  | some (n, rest) =>
    (decodeN n rest).map (fun lr => (n, lr.1))

/-! ### Basic lemmas about the byte primitives -/

theorem natToLE_length (w v : Nat) : (natToLE w v).length = w := by
  induction w generalizing v with
  | zero => rfl
  | succ w ih => simp [natToLE, ih]

theorem peekBytes_length {w : Nat} {data : Bytes} {v : Nat} {rest : Bytes}
    (h : peekBytes w data = some (v, rest)) : data.length = w + rest.length := by
  induction w generalizing data v with
  | zero =>
    simp only [peekBytes, Option.some.injEq, Prod.mk.injEq] at h
    rw [h.2]
    omega
  | succ w ih =>
    cases data with
    | nil => simp [peekBytes] at h
    | cons b bs =>
      simp only [peekBytes] at h
      cases hp : peekBytes w bs with
      | none => rw [hp] at h; simp at h
      | some vr =>
        obtain ⟨v', r'⟩ := vr
        rw [hp] at h
        simp only [Option.map_some', Option.some.injEq, Prod.mk.injEq] at h
        obtain ⟨-, rfl⟩ := h
        have hlen := ih hp
        simp only [List.length_cons]
        omega

theorem peekBytes_natToLE (w v : Nat) (rest : Bytes) :
    peekBytes w (natToLE w v ++ rest) = some (v % 256 ^ w, rest) := by
  induction w generalizing v with
  | zero => simp [natToLE, peekBytes, Nat.mod_one]
  | succ w ih =>
    have hpow : (256 : Nat) ^ (w + 1) = 256 * 256 ^ w := by ring
    simp only [natToLE, List.cons_append, peekBytes, List.append_eq, ih,
      Option.map_some']
    rw [hpow, Nat.mod_mul]

theorem peekBytes_natToLE_of_lt {w v : Nat} (rest : Bytes) (h : v < 256 ^ w) :
    peekBytes w (natToLE w v ++ rest) = some (v, rest) := by
  rw [peekBytes_natToLE, Nat.mod_eq_of_lt h]

/-! ### Codec lemmas: peek is a left inverse of poke -/

/-- Well-formed bit patterns: each f32 field of a RectItem fits in 32
bits (256 ^ 4 = 2 ^ 32). -/
def RectItem.wfB (r : RectItem) : Bool :=
  decide (r.minX < 256 ^ 4) && decide (r.minY < 256 ^ 4) &&
    decide (r.maxX < 256 ^ 4) && decide (r.maxY < 256 ^ 4)

/-- Well-formed display items: rect payloads carry 32-bit patterns. -/
def DisplayListItem.wfB : DisplayListItem → Bool
  | .rect r => r.wfB
  | _ => true

theorem peekRect_poke {r : RectItem} (h : r.wfB = true) (rest : Bytes) :
    peekRect (r.poke ++ rest) = some (r, rest) := by
  simp only [RectItem.wfB, Bool.and_eq_true, decide_eq_true_eq] at h
  obtain ⟨⟨⟨h1, h2⟩, h3⟩, h4⟩ := h
  simp only [RectItem.poke, List.append_assoc, peekRect,
    peekBytes_natToLE_of_lt _ h1, peekBytes_natToLE_of_lt _ h2,
    peekBytes_natToLE_of_lt _ h3, peekBytes_natToLE_of_lt _ h4]

theorem peekItem_poke {d : DisplayListItem} (h : d.wfB = true) (rest : Bytes) :
    peekItem (d.poke ++ rest) = some (d, rest) := by
  cases d with
  | rect r =>
    simp only [DisplayListItem.wfB] at h
    simp only [DisplayListItem.poke, List.append_assoc, peekItem,
      peekBytes_natToLE_of_lt _ (show (0 : Nat) < 256 ^ 4 by norm_num),
      if_true, peekRect_poke h, Option.map_some']
  | list =>
    simp [DisplayListItem.poke, peekItem,
      peekBytes_natToLE_of_lt _ (show (1 : Nat) < 256 ^ 4 by norm_num)]
  | listItem =>
    simp [DisplayListItem.poke, peekItem,
      peekBytes_natToLE_of_lt _ (show (2 : Nat) < 256 ^ 4 by norm_num)]
  | none =>
    simp [DisplayListItem.poke, peekItem,
      peekBytes_natToLE_of_lt _ (show (3 : Nat) < 256 ^ 4 by norm_num)]

theorem poke_length_bounds (d : DisplayListItem) :
    4 ≤ d.poke.length ∧ d.poke.length ≤ DisplayListItem.maxSize := by
  cases d <;>
    simp [DisplayListItem.poke, RectItem.poke, DisplayListItem.maxSize,
      RectItem.pokeSize, natToLE_length]

theorem peekRect_length {data : Bytes} {r : RectItem} {rest : Bytes}
    (h : peekRect data = some (r, rest)) : data.length = 16 + rest.length := by
  unfold peekRect at h
  cases h1 : peekBytes 4 data with
  | none => simp [h1] at h
  | some vr1 =>
    obtain ⟨a, d1⟩ := vr1
    simp only [h1] at h
    cases h2 : peekBytes 4 d1 with
    | none => simp [h2] at h
    | some vr2 =>
      obtain ⟨b, d2⟩ := vr2
      simp only [h2] at h
      cases h3 : peekBytes 4 d2 with
      | none => simp [h3] at h
      | some vr3 =>
        obtain ⟨c, d3⟩ := vr3
        simp only [h3] at h
        cases h4 : peekBytes 4 d3 with
        | none => simp [h4] at h
        | some vr4 =>
          obtain ⟨dd, d4⟩ := vr4
          simp only [h4, Option.some.injEq, Prod.mk.injEq] at h
          have e1 := peekBytes_length h1
          have e2 := peekBytes_length h2
          have e3 := peekBytes_length h3
          have e4 := peekBytes_length h4
          rw [h.2] at e4
          omega

theorem peekItem_length_lt {data : Bytes} {d : DisplayListItem} {rest : Bytes}
    (h : peekItem data = some (d, rest)) : rest.length < data.length := by
  unfold peekItem at h
  cases h1 : peekBytes 4 data with
  | none => simp [h1] at h
  | some vr =>
    obtain ⟨tag, r⟩ := vr
    simp only [h1] at h
    have e1 := peekBytes_length h1
    split at h
    · cases h2 : peekRect r with
      | none => simp [h2] at h
      | some rr =>
        obtain ⟨r', r4⟩ := rr
        rw [h2] at h
        simp only [Option.map_some', Option.some.injEq, Prod.mk.injEq] at h
        have e2 := peekRect_length h2
        rw [h.2] at e2
        omega
    · split at h
      · simp only [Option.some.injEq, Prod.mk.injEq] at h
        rw [← h.2]
        omega
      · split at h
        · simp only [Option.some.injEq, Prod.mk.injEq] at h
          rw [← h.2]
          omega
        · split at h
          · simp only [Option.some.injEq, Prod.mk.injEq] at h
            rw [← h.2]
            omega
          · simp at h

/-- A successful iterator step strictly shrinks the remaining view. -/
theorem step_rest_lt {s : DisplayListItem} {data : Bytes} {d : DisplayListItem}
    {skip : Option Bytes} {rest : Bytes}
    (h : nextPayloadAsItem s data = StepResult.item d skip rest) :
    rest.length < data.length := by
  unfold nextPayloadAsItem at h
  split at h
  · exact absurd h (by simp)
  · cases h1 : peekItem data with
    | none => simp [h1] at h
    | some dr =>
      obtain ⟨d', r⟩ := dr
      simp only [h1] at h
      have hr := peekItem_length_lt h1
      cases d' with
      | list =>
        cases h2 : peekBytes 8 r with
        | none => simp [h2] at h
        | some sr =>
          obtain ⟨sk, r'⟩ := sr
          simp only [h2] at h
          have e2 := peekBytes_length h2
          split at h
          · simp only [StepResult.item.injEq] at h
            obtain ⟨-, -, h3⟩ := h
            rw [← h3, List.length_drop]
            omega
          · exact absurd h (by simp)
      | rect rr =>
        simp only [StepResult.item.injEq] at h
        rw [← h.2.2]
        omega
      | listItem =>
        simp only [StepResult.item.injEq] at h
        rw [← h.2.2]
        omega
      | none =>
        simp only [StepResult.item.injEq] at h
        rw [← h.2.2]
        omega

/-! ### The decode walks of Backend::process and the worker loop -/

/-- The full walk of Backend::process: step the outer iterator to
exhaustion, and for every returned skip range read its count and decode
that many nested items. Returns the observation sequence (one pair per
top-level record) and the final remaining view; Option.none when the
program would panic. -/
def fullWalk (data : Bytes) :
    Option (List (DisplayListItem × Option (Nat × List DisplayListItem)) × Bytes) :=
  match h : nextPayloadAsItem DisplayListItem.none data with
  | .done => some ([], data)
  | .fault => Option.none
  | .item d skip rest =>
    match skip with
    | Option.none =>
      (fullWalk rest).map (fun lr => ((d, Option.none) :: lr.1, lr.2))
    | some s =>
      match processSkip s with
      | Option.none => Option.none
      | some pr => (fullWalk rest).map (fun lr => ((d, some pr) :: lr.1, lr.2))
termination_by data.length
decreasing_by all_goals exact step_rest_lt h

/-- The walk of a caller that always ignores the returned skip ranges:
only the top-level records, same iterator stepping. -/
def outerWalk (data : Bytes) : Option (List DisplayListItem × Bytes) :=
  match h : nextPayloadAsItem DisplayListItem.none data with
  | .done => some ([], data)
  | .fault => Option.none
  | .item d _ rest => (outerWalk rest).map (fun lr => (d :: lr.1, lr.2))
termination_by data.length
decreasing_by exact step_rest_lt h

/-- One element a caller hands to the builder: a single record pushed
with push_item, or a sublist pushed with push_list. -/
inductive Entry
  | item (d : DisplayListItem)
  | sublist (items : List DisplayListItem)
  deriving DecidableEq

/-- Dispatch one entry to the matching builder call. -/
def pushEntry (payload : Bytes) : Entry → Bytes
  | .item d => pushItem payload d
  | .sublist items => pushList payload items

/-- Build a sealed stream: push every entry in order, then end(). -/
def buildStream (es : List Entry) : Bytes :=
  endList (es.foldl pushEntry [])

/-- Read one observation of the full walk back as an entry: a record
with no skip range is a plain item, a record with a decoded skip range
is a sublist of the nested items. -/
def viewToEntry : DisplayListItem × Option (Nat × List DisplayListItem) → Entry
  | (d, Option.none) => Entry.item d
  | (_, some (_, items)) => Entry.sublist items

/-- The record sequence recovered by a full decode. -/
def decodeStream (data : Bytes) : Option (List Entry) :=
  (fullWalk data).map (fun lr => lr.1.map viewToEntry)

/-- The two channel messages of the pipeline. -/
inductive Message
  | setDisplayList (payload : Bytes)
  | close
  deriving DecidableEq

/-- Observable events of the worker thread, in order. -/
inductive Event
  | decoded (r : List (DisplayListItem × Option (Nat × List DisplayListItem)) × Bytes)
  | decodeFault
  | completionSignal
  deriving DecidableEq

/-- Backend::run: consume the delivered messages in order; for a
submitted stream run the full decode and then send the completion
signal; stop on close. The Bool records whether the loop exited via
close (false: still blocked on recv, or the thread died in a decode
panic). -/
def backendRun : List Message → List Event × Bool
  | [] => ([], false)
  | .close :: _ => ([], true)
  | .setDisplayList p :: rest =>
    match fullWalk p with
    | Option.none => ([Event.decodeFault], false)
    | some r =>
      let er := backendRun rest
      (Event.decoded r :: Event.completionSignal :: er.1, er.2)

/-! ### Flattened view of what the builder appends -/

/-- The concatenated encodings of a list of items (poke_extend_vec). -/
def encodeItems (items : List DisplayListItem) : Bytes :=
  (items.map DisplayListItem.poke).flatten

/-- The body of a sublist block, exactly the span the byte-size prefix
covers: the count field, the encoded items, and the red zone for the
item type. -/
def sublistBody (items : List DisplayListItem) : Bytes :=
  natToLE 8 items.length ++ encodeItems items ++
    List.replicate DisplayListItem.maxSize 0

/-- The bytes one builder call appends for an entry. -/
def entryBytes : Entry → Bytes
  | .item d => d.poke
  | .sublist items =>
    DisplayListItem.list.poke ++ natToLE 8 (sublistBody items).length ++
      sublistBody items

/-- The concatenated encodings of a list of entries. -/
def encodeEntries (es : List Entry) : Bytes :=
  (es.map entryBytes).flatten

theorem maxSize_eq : DisplayListItem.maxSize = 20 := by decide

theorem take_len {α : Type} (A B : List α) : (A ++ B).take A.length = A := by
  induction A with
  | nil => rfl
  | cons a A ih => simp [ih]

theorem drop_len {α : Type} (A B : List α) : (A ++ B).drop A.length = B := by
  induction A with
  | nil => rfl
  | cons a A ih => simp [ih]

theorem foldl_poke (items : List DisplayListItem) (p : Bytes) :
    items.foldl (fun p d => p ++ d.poke) p = p ++ encodeItems items := by
  induction items generalizing p with
  | nil => simp [encodeItems]
  | cons d items ih => simp [encodeItems, ih]

theorem writeAt_backpatch (payload tail : Bytes) (k : Nat) :
    writeAt (payload ++ natToLE 8 0 ++ tail) payload.length (natToLE 8 k)
      = payload ++ natToLE 8 k ++ tail := by
  unfold writeAt
  have ht : ((payload ++ natToLE 8 0) ++ tail).take payload.length = payload := by
    rw [List.append_assoc]
    exact take_len _ _
  have hd : ((payload ++ natToLE 8 0) ++ tail).drop
      (payload.length + (natToLE 8 k).length) = tail := by
    have he : payload.length + (natToLE 8 k).length
        = (payload ++ natToLE 8 0).length := by
      simp [natToLE_length]
    rw [he, drop_len]
  rw [ht, hd]

theorem pushIter_eq (payload : Bytes) (items : List DisplayListItem) :
    pushIter payload items =
      payload ++ natToLE 8 (sublistBody items).length ++ sublistBody items := by
  simp only [pushIter, foldl_poke]
  have hb : (((payload ++ natToLE 8 0) ++ natToLE 8 items.length ++
        encodeItems items) ++ List.replicate DisplayListItem.maxSize 0)
      = payload ++ natToLE 8 0 ++ sublistBody items := by
    simp [sublistBody, List.append_assoc]
  have hk : (payload ++ natToLE 8 0 ++ sublistBody items).length -
      payload.length - 8 = (sublistBody items).length := by
    simp only [List.length_append, natToLE_length]
    omega
  rw [hb, hk, writeAt_backpatch]

theorem pushList_eq (payload : Bytes) (items : List DisplayListItem) :
    pushList payload items = payload ++ entryBytes (Entry.sublist items) := by
  unfold pushList pushItem entryBytes
  rw [pushIter_eq]
  simp [List.append_assoc]

theorem foldl_pushEntry (es : List Entry) (p : Bytes) :
    es.foldl pushEntry p = p ++ encodeEntries es := by
  induction es generalizing p with
  | nil => simp [encodeEntries]
  | cons e es ih =>
    cases e with
    | item d =>
      simp [pushEntry, pushItem, encodeEntries, entryBytes, ih,
        List.append_assoc]
    | sublist items =>
      simp [pushEntry, encodeEntries, ih, pushList_eq, List.append_assoc]

theorem buildStream_eq (es : List Entry) :
    buildStream es = encodeEntries es ++
      List.replicate DisplayListItem.maxSize 0 := by
  unfold buildStream endList ensureRedZone
  rw [foldl_pushEntry]
  simp

/-! ### One iterator step over a builder-produced block -/

theorem step_entry_item {d : DisplayListItem} (hw : d.wfB = true)
    (hnl : d ≠ DisplayListItem.list) (s : DisplayListItem) (suffix : Bytes)
    (hs : DisplayListItem.maxSize ≤ suffix.length) :
    nextPayloadAsItem s (d.poke ++ suffix) = StepResult.item d Option.none suffix := by
  have hp := (poke_length_bounds d).1
  have hlen : ¬((d.poke ++ suffix).length ≤ DisplayListItem.maxSize) := by
    simp only [List.length_append]
    omega
  unfold nextPayloadAsItem
  rw [if_neg hlen, peekItem_poke hw]
  cases d with
  | rect r => rfl
  | list => exact absurd rfl hnl
  | listItem => rfl
  | none => rfl

theorem step_entry_sublist (items : List DisplayListItem) (s : DisplayListItem)
    (suffix : Bytes) (hb : (sublistBody items).length < 256 ^ 8)
    (hs : DisplayListItem.maxSize ≤ suffix.length) :
    nextPayloadAsItem s (entryBytes (Entry.sublist items) ++ suffix)
      = StepResult.item DisplayListItem.list (some (sublistBody items)) suffix := by
  have hlen : ¬((entryBytes (Entry.sublist items) ++ suffix).length
      ≤ DisplayListItem.maxSize) := by
    simp only [List.length_append, entryBytes, DisplayListItem.poke,
      natToLE_length]
    omega
  unfold nextPayloadAsItem
  rw [if_neg hlen]
  have harr : entryBytes (Entry.sublist items) ++ suffix
      = DisplayListItem.list.poke ++
        (natToLE 8 (sublistBody items).length ++ (sublistBody items ++ suffix)) := by
    simp [entryBytes, List.append_assoc]
  rw [harr, peekItem_poke (show DisplayListItem.list.wfB = true from rfl)]
  have hle : (sublistBody items).length ≤ (sublistBody items ++ suffix).length := by
    simp
  simp [peekBytes_natToLE_of_lt _ hb, hle, take_len, drop_len]

theorem decodeN_encodeItems {items : List DisplayListItem}
    (h : items.all DisplayListItem.wfB = true) (rest : Bytes) :
    decodeN items.length (encodeItems items ++ rest) = some (items, rest) := by
  induction items with
  | nil => simp [decodeN, encodeItems]
  | cons d items ih =>
    simp only [List.all_cons, Bool.and_eq_true] at h
    have harr : encodeItems (d :: items) ++ rest
        = d.poke ++ (encodeItems items ++ rest) := by
      simp [encodeItems]
    simp only [List.length_cons, decodeN, harr, peekItem_poke h.1]
    simp [ih h.2]

theorem processSkip_body {items : List DisplayListItem}
    (hw : items.all DisplayListItem.wfB = true) (hn : items.length < 256 ^ 8) :
    processSkip (sublistBody items) = some (items.length, items) := by
  unfold processSkip readCount
  have hne : (sublistBody items).isEmpty = false := by
    simp [sublistBody, natToLE]
  rw [hne]
  have harr : sublistBody items = natToLE 8 items.length ++
      (encodeItems items ++ List.replicate DisplayListItem.maxSize 0) := by
    simp [sublistBody]
  simp only [Bool.false_eq_true, if_false, harr, peekBytes_natToLE_of_lt _ hn]
  simp [decodeN_encodeItems hw]

/-! ### Unfolding equations for the walks -/

theorem fullWalk_done {data : Bytes}
    (h : nextPayloadAsItem DisplayListItem.none data = StepResult.done) :
    fullWalk data = some ([], data) := by
  unfold fullWalk
  split
  · rfl
  · rename_i heq
    rw [h] at heq
    exact absurd heq (by simp)
  · rename_i d' skip' rest' heq
    rw [h] at heq
    exact absurd heq (by simp)

theorem fullWalk_item_none {data : Bytes} {d : DisplayListItem} {rest : Bytes}
    (h : nextPayloadAsItem DisplayListItem.none data
      = StepResult.item d Option.none rest) :
    fullWalk data
      = (fullWalk rest).map (fun lr => ((d, Option.none) :: lr.1, lr.2)) := by
  conv_lhs => unfold fullWalk
  split
  · rename_i heq
    rw [h] at heq
    exact absurd heq (by simp)
  · rename_i heq
    rw [h] at heq
    exact absurd heq (by simp)
  · rename_i d' skip' rest' heq
    rw [h] at heq
    simp only [StepResult.item.injEq] at heq
    obtain ⟨rfl, rfl, rfl⟩ := heq
    rfl

theorem fullWalk_item_some {data : Bytes} {d : DisplayListItem} {s rest : Bytes}
    {n : Nat} {items : List DisplayListItem}
    (h : nextPayloadAsItem DisplayListItem.none data
      = StepResult.item d (some s) rest)
    (hp : processSkip s = some (n, items)) :
    fullWalk data
      = (fullWalk rest).map (fun lr => ((d, some (n, items)) :: lr.1, lr.2)) := by
  conv_lhs => unfold fullWalk
  split
  · rename_i heq
    rw [h] at heq
    exact absurd heq (by simp)
  · rename_i heq
    rw [h] at heq
    exact absurd heq (by simp)
  · rename_i d' skip' rest' heq
    rw [h] at heq
    simp only [StepResult.item.injEq] at heq
    obtain ⟨rfl, rfl, rfl⟩ := heq
    simp [hp]

theorem outerWalk_done {data : Bytes}
    (h : nextPayloadAsItem DisplayListItem.none data = StepResult.done) :
    outerWalk data = some ([], data) := by
  unfold outerWalk
  split
  · rfl
  · rename_i heq
    rw [h] at heq
    exact absurd heq (by simp)
  · rename_i d' skip' rest' heq
    rw [h] at heq
    exact absurd heq (by simp)

theorem outerWalk_item {data : Bytes} {d : DisplayListItem}
    {skip : Option Bytes} {rest : Bytes}
    (h : nextPayloadAsItem DisplayListItem.none data
      = StepResult.item d skip rest) :
    outerWalk data = (outerWalk rest).map (fun lr => (d :: lr.1, lr.2)) := by
  conv_lhs => unfold outerWalk
  split
  · rename_i heq
    rw [h] at heq
    exact absurd heq (by simp)
  · rename_i heq
    rw [h] at heq
    exact absurd heq (by simp)
  · rename_i d' skip' rest' heq
    rw [h] at heq
    simp only [StepResult.item.injEq] at heq
    obtain ⟨rfl, rfl, rfl⟩ := heq
    rfl

/-! ### Decoding a builder-produced stream -/

/-- Well-formed builder input: a plain record entry is not the bare
list-begin marker (the builder writes that marker itself when a sublist
is pushed), rect bit patterns fit their 32-bit fields, and the sublist
count and backpatched byte size fit the 8-byte usize fields. -/
def Entry.wf : Entry → Bool
  | .item d => decide (d ≠ DisplayListItem.list) && d.wfB
  | .sublist items =>
    items.all DisplayListItem.wfB && decide (items.length < 256 ^ 8) &&
      decide ((sublistBody items).length < 256 ^ 8)

/-- The observation the full walk makes for one entry: a plain record
with no skip range, or the list marker with the decoded count and items. -/
def entryView : Entry → DisplayListItem × Option (Nat × List DisplayListItem)
  | .item d => (d, Option.none)
  | .sublist items => (DisplayListItem.list, some (items.length, items))

theorem fullWalk_encode (es : List Entry) (h : es.all Entry.wf = true) :
    fullWalk (encodeEntries es ++ List.replicate DisplayListItem.maxSize 0)
      = some (es.map entryView, List.replicate DisplayListItem.maxSize 0) := by
  induction es with
  | nil =>
    simp only [encodeEntries, List.map_nil, List.flatten_nil, List.nil_append]
    have hdone : nextPayloadAsItem DisplayListItem.none
        (List.replicate DisplayListItem.maxSize 0) = StepResult.done := by
      unfold nextPayloadAsItem
      rw [if_pos (by simp)]
    exact fullWalk_done hdone
  | cons e es ih =>
    simp only [List.all_cons, Bool.and_eq_true] at h
    obtain ⟨he, hes⟩ := h
    have hsuf : DisplayListItem.maxSize ≤
        (encodeEntries es ++ List.replicate DisplayListItem.maxSize 0).length := by
      simp
    have harr : encodeEntries (e :: es) ++ List.replicate DisplayListItem.maxSize 0
        = entryBytes e ++
          (encodeEntries es ++ List.replicate DisplayListItem.maxSize 0) := by
      simp [encodeEntries]
    rw [harr]
    cases e with
    | item d =>
      simp only [Entry.wf, Bool.and_eq_true, decide_eq_true_eq] at he
      simp only [entryBytes]
      rw [fullWalk_item_none
        (step_entry_item he.2 he.1 DisplayListItem.none _ hsuf), ih hes]
      simp [entryView]
    | sublist items =>
      simp only [Entry.wf, Bool.and_eq_true, decide_eq_true_eq] at he
      obtain ⟨⟨hw, hn⟩, hb⟩ := he
      rw [fullWalk_item_some
        (step_entry_sublist items DisplayListItem.none _ hb hsuf)
        (processSkip_body hw hn), ih hes]
      simp [entryView]

theorem outerWalk_encode (es : List Entry) (h : es.all Entry.wf = true) :
    outerWalk (encodeEntries es ++ List.replicate DisplayListItem.maxSize 0)
      = some (es.map (fun e => (entryView e).1),
          List.replicate DisplayListItem.maxSize 0) := by
  induction es with
  | nil =>
    simp only [encodeEntries, List.map_nil, List.flatten_nil, List.nil_append]
    have hdone : nextPayloadAsItem DisplayListItem.none
        (List.replicate DisplayListItem.maxSize 0) = StepResult.done := by
      unfold nextPayloadAsItem
      rw [if_pos (by simp)]
    exact outerWalk_done hdone
  | cons e es ih =>
    simp only [List.all_cons, Bool.and_eq_true] at h
    obtain ⟨he, hes⟩ := h
    have hsuf : DisplayListItem.maxSize ≤
        (encodeEntries es ++ List.replicate DisplayListItem.maxSize 0).length := by
      simp
    have harr : encodeEntries (e :: es) ++ List.replicate DisplayListItem.maxSize 0
        = entryBytes e ++
          (encodeEntries es ++ List.replicate DisplayListItem.maxSize 0) := by
      simp [encodeEntries]
    rw [harr]
    cases e with
    | item d =>
      simp only [Entry.wf, Bool.and_eq_true, decide_eq_true_eq] at he
      simp only [entryBytes]
      rw [outerWalk_item
        (step_entry_item he.2 he.1 DisplayListItem.none _ hsuf), ih hes]
      simp [entryView]
    | sublist items =>
      simp only [Entry.wf, Bool.and_eq_true, decide_eq_true_eq] at he
      obtain ⟨⟨hw, hn⟩, hb⟩ := he
      rw [outerWalk_item
        (step_entry_sublist items DisplayListItem.none _ hb hsuf), ih hes]
      simp [entryView]

theorem viewToEntry_entryView (e : Entry) : viewToEntry (entryView e) = e := by
  cases e <;> rfl

theorem step_not_done {s : DisplayListItem} {data : Bytes}
    (hg : ¬ data.length ≤ DisplayListItem.maxSize) :
    nextPayloadAsItem s data ≠ StepResult.done := by
  unfold nextPayloadAsItem
  rw [if_neg hg]
  cases h1 : peekItem data with
  | none => simp
  | some dr =>
    obtain ⟨d', r⟩ := dr
    cases d' with
    | list =>
      cases h2 : peekBytes 8 r with
      | none => simp [h2]
      | some sr =>
        obtain ⟨sk, r'⟩ := sr
        simp only [h2]
        split <;> simp
    | rect rr => simp
    | listItem => simp
    | none => simp

theorem step_done_iff (s : DisplayListItem) (data : Bytes) :
    nextPayloadAsItem s data = StepResult.done
      ↔ data.length ≤ DisplayListItem.maxSize := by
  constructor
  · intro h
    by_contra hg
    exact step_not_done hg h
  · intro h
    unfold nextPayloadAsItem
    rw [if_pos h]

theorem leToNat_natToLE (w v : Nat) : leToNat (natToLE w v) = v % 256 ^ w := by
  induction w generalizing v with
  | zero => simp [natToLE, leToNat, Nat.mod_one]
  | succ w ih =>
    have hpow : (256 : Nat) ^ (w + 1) = 256 * 256 ^ w := by ring
    simp only [natToLE, leToNat, ih]
    rw [hpow, Nat.mod_mul]

/-! ### The claims -/

/-- C1: building a stream from any sequence of records and sublists
(push_item / push_list, then end) and fully decoding it with the
iterator - walking every returned skip range by reading its count and
decoding that many items - yields exactly the original sequence, in
order, with nothing extra or missing. Well-formedness asks only what the
machine grants the program: plain entries are not the bare list-begin
marker, bit patterns fit f32, counts and byte sizes fit usize. -/
theorem roundTrip_decode (es : List Entry) (h : es.all Entry.wf = true) :
    decodeStream (buildStream es) = some es := by
  unfold decodeStream
  rw [buildStream_eq, fullWalk_encode es h]
  simp only [Option.map_some', List.map_map]
  have hc : viewToEntry ∘ entryView = id := funext viewToEntry_entryView
  rw [hc, List.map_id]

theorem roundTrip_decode_witness :
    ([Entry.item (DisplayListItem.rect ⟨1, 2, 3, 4⟩),
      Entry.sublist [DisplayListItem.listItem, DisplayListItem.listItem],
      Entry.sublist [],
      Entry.item DisplayListItem.none].all Entry.wf = true)
    ∧ decodeStream (buildStream
        [Entry.item (DisplayListItem.rect ⟨1, 2, 3, 4⟩),
         Entry.sublist [DisplayListItem.listItem, DisplayListItem.listItem],
         Entry.sublist [],
         Entry.item DisplayListItem.none])
      = some [Entry.item (DisplayListItem.rect ⟨1, 2, 3, 4⟩),
              Entry.sublist [DisplayListItem.listItem, DisplayListItem.listItem],
              Entry.sublist [],
              Entry.item DisplayListItem.none] :=
  ⟨by decide, roundTrip_decode _ (by decide)⟩

/-- C2: the byte size backpatched into a sublist's placeholder is exactly
(count field size) + (total encoded size of the items) + (red zone size
for the item type), the value read back from those eight bytes is exactly
that number, and stepping the outer iterator over the sublist block lands
exactly at the start of the next outer-level record. -/
theorem byteSize_prefix (payload : Bytes) (items : List DisplayListItem)
    (s : DisplayListItem) (suffix : Bytes)
    (hb : (sublistBody items).length < 256 ^ 8)
    (hs : DisplayListItem.maxSize ≤ suffix.length) :
    pushIter payload items = payload ++
        natToLE 8 (8 + (encodeItems items).length + DisplayListItem.maxSize) ++
        sublistBody items
    ∧ leToNat (natToLE 8
        (8 + (encodeItems items).length + DisplayListItem.maxSize))
      = 8 + (encodeItems items).length + DisplayListItem.maxSize
    ∧ nextPayloadAsItem s (entryBytes (Entry.sublist items) ++ suffix)
      = StepResult.item DisplayListItem.list (some (sublistBody items)) suffix := by
  have hlen : (sublistBody items).length
      = 8 + (encodeItems items).length + DisplayListItem.maxSize := by
    simp only [sublistBody, List.length_append, natToLE_length,
      List.length_replicate]
  refine ⟨?_, ?_, ?_⟩
  · rw [pushIter_eq, hlen]
  · rw [leToNat_natToLE, ← hlen, Nat.mod_eq_of_lt hb]
  · exact step_entry_sublist items s suffix hb hs

theorem byteSize_prefix_witness :
    ((sublistBody [DisplayListItem.listItem]).length < 256 ^ 8
      ∧ DisplayListItem.maxSize ≤ (List.replicate 20 0 : Bytes).length)
    ∧ pushIter [9] [DisplayListItem.listItem] = [9] ++
        natToLE 8 (8 + (encodeItems [DisplayListItem.listItem]).length +
          DisplayListItem.maxSize) ++ sublistBody [DisplayListItem.listItem]
    ∧ leToNat (natToLE 8 (8 + (encodeItems [DisplayListItem.listItem]).length +
          DisplayListItem.maxSize))
      = 8 + (encodeItems [DisplayListItem.listItem]).length +
          DisplayListItem.maxSize
    ∧ nextPayloadAsItem DisplayListItem.none
        (entryBytes (Entry.sublist [DisplayListItem.listItem]) ++
          List.replicate 20 0)
      = StepResult.item DisplayListItem.list
          (some (sublistBody [DisplayListItem.listItem]))
          (List.replicate 20 0) :=
  ⟨⟨by decide, by decide⟩,
    byteSize_prefix [9] [DisplayListItem.listItem] DisplayListItem.none
      (List.replicate 20 0) (by decide) (by decide)⟩

/-- C3: next_payload_as_item yields nothing exactly when the remaining
slice's length is not strictly greater than DisplayListItem's max_size;
in particular a stream sealed by end() with no records appended stops at
the first call, so an empty sealed stream decodes to zero records. -/
theorem decoder_stop :
    (∀ (s : DisplayListItem) (data : Bytes),
        nextPayloadAsItem s data = StepResult.done
          ↔ data.length ≤ DisplayListItem.maxSize)
    ∧ nextPayloadAsItem DisplayListItem.none (endList []) = StepResult.done
    ∧ decodeStream (endList []) = some [] := by
  refine ⟨step_done_iff, rfl, ?_⟩
  unfold decodeStream
  rw [fullWalk_done (show nextPayloadAsItem DisplayListItem.none (endList [])
    = StepResult.done from rfl)]
  rfl

/-- C4: on a builder-produced stream no decode step reads past the end
of the buffer - in this embedding every out-of-bounds peek or split
returns Option.none / StepResult.fault, so the full walk running to
completion with some means every peek of a tag, record body, byte-size
prefix and count stayed within the slice and every split of the view at
the byte-size value was in bounds. -/
theorem decode_in_bounds (es : List Entry) (h : es.all Entry.wf = true) :
    fullWalk (buildStream es)
      = some (es.map entryView, List.replicate DisplayListItem.maxSize 0) := by
  rw [buildStream_eq]
  exact fullWalk_encode es h

theorem decode_in_bounds_witness :
    ([Entry.sublist [], Entry.item DisplayListItem.listItem].all Entry.wf = true)
    ∧ fullWalk (buildStream [Entry.sublist [], Entry.item DisplayListItem.listItem])
      = some ([Entry.sublist [], Entry.item DisplayListItem.listItem].map entryView,
          List.replicate DisplayListItem.maxSize 0) :=
  ⟨by decide, decode_in_bounds _ (by decide)⟩

/-- The first rectangle of main(): min (100,100), max (500,500); the
fields are the IEEE-754 bit patterns of 100.0f32 (0x42C80000) and
500.0f32 (0x43FA0000). -/
def rect1 : RectItem := ⟨0x42C80000, 0x42C80000, 0x43FA0000, 0x43FA0000⟩

/-- The second rectangle of main(): min (500,500), max (1000,1000);
1000.0f32 has bit pattern 0x447A0000. -/
def rect2 : RectItem := ⟨0x43FA0000, 0x43FA0000, 0x447A0000, 0x447A0000⟩

/-- The exact stream main() builds: two rectangles, then a sublist of
two ListItem placeholders, then end(). -/
def mainStream : Bytes :=
  endList (pushList
    (pushItem (pushItem [] (DisplayListItem.rect rect1))
      (DisplayListItem.rect rect2))
    [DisplayListItem.listItem, DisplayListItem.listItem])

/-- C5: fully decoding the stream main() builds yields, in order, the
first rectangle, the second rectangle, and the list marker whose skip
range decodes to count 2 and exactly two ListItem records; the iterator
then stops on the trailing red zone (end of stream). -/
theorem main_scenario :
    fullWalk mainStream
      = some ([(DisplayListItem.rect rect1, Option.none),
               (DisplayListItem.rect rect2, Option.none),
               (DisplayListItem.list,
                 some (2, [DisplayListItem.listItem, DisplayListItem.listItem]))],
          List.replicate DisplayListItem.maxSize 0) := by
  have hm : mainStream = buildStream
      [Entry.item (DisplayListItem.rect rect1),
       Entry.item (DisplayListItem.rect rect2),
       Entry.sublist [DisplayListItem.listItem, DisplayListItem.listItem]] := rfl
  rw [hm, buildStream_eq, fullWalk_encode _ (by decide)]
  rfl

/-- C6: decoding while always ignoring skip ranges yields exactly the
top-level records, in the same number and order as the full nested walk,
and both walks leave the iterator in the identical final remaining-view
position. -/
theorem skip_walk_agreement (es : List Entry) (h : es.all Entry.wf = true) :
    ∃ top full fin,
      outerWalk (buildStream es) = some (top, fin)
      ∧ fullWalk (buildStream es) = some (full, fin)
      ∧ full.map Prod.fst = top
      ∧ full.length = top.length := by
  refine ⟨es.map (fun e => (entryView e).1), es.map entryView,
    List.replicate DisplayListItem.maxSize 0, ?_, ?_, ?_, ?_⟩
  · rw [buildStream_eq]
    exact outerWalk_encode es h
  · rw [buildStream_eq]
    exact fullWalk_encode es h
  · simp [List.map_map, Function.comp]
  · simp

theorem skip_walk_agreement_witness :
    ([Entry.item DisplayListItem.listItem, Entry.sublist [DisplayListItem.none]].all
        Entry.wf = true)
    ∧ ∃ top full fin,
        outerWalk (buildStream
          [Entry.item DisplayListItem.listItem, Entry.sublist [DisplayListItem.none]])
          = some (top, fin)
        ∧ fullWalk (buildStream
            [Entry.item DisplayListItem.listItem, Entry.sublist [DisplayListItem.none]])
          = some (full, fin)
        ∧ full.map Prod.fst = top
        ∧ full.length = top.length :=
  ⟨by decide, skip_walk_agreement _ (by decide)⟩

/-- C7: end() and the per-sublist red zone each append exactly max_size
padding (zero) bytes for the respective record type, and the decoder
returns done - never attempting a decode - whenever the remaining byte
count is at most that maximum. -/
theorem red_zone_sizing (p : Bytes) (items : List DisplayListItem)
    (s : DisplayListItem) (data : Bytes) :
    endList p = p ++ List.replicate DisplayListItem.maxSize 0
    ∧ (endList p).length = p.length + DisplayListItem.maxSize
    ∧ pushIter p items
        = p ++ natToLE 8 (sublistBody items).length ++ sublistBody items
    ∧ sublistBody items = natToLE 8 items.length ++ encodeItems items ++
        List.replicate DisplayListItem.maxSize 0
    ∧ (data.length ≤ DisplayListItem.maxSize →
        nextPayloadAsItem s data = StepResult.done) :=
  ⟨rfl, by simp [endList, ensureRedZone], pushIter_eq p items, rfl,
    fun h => (step_done_iff s data).mpr h⟩

theorem red_zone_sizing_witness :
    endList [5] = [5] ++ List.replicate DisplayListItem.maxSize 0
    ∧ (endList [5]).length = [5].length + DisplayListItem.maxSize
    ∧ pushIter [5] [DisplayListItem.none] = [5] ++
        natToLE 8 (sublistBody [DisplayListItem.none]).length ++
        sublistBody [DisplayListItem.none]
    ∧ sublistBody [DisplayListItem.none] = natToLE 8 [DisplayListItem.none].length ++
        encodeItems [DisplayListItem.none] ++
        List.replicate DisplayListItem.maxSize 0
    ∧ nextPayloadAsItem DisplayListItem.none (List.replicate 20 0)
        = StepResult.done :=
  have h := red_zone_sizing [5] [DisplayListItem.none] DisplayListItem.none
    (List.replicate 20 0)
  ⟨h.1, h.2.1, h.2.2.1, h.2.2.2.1, h.2.2.2.2 (by decide)⟩

/-- C8: the worker processes its channel messages strictly in order:
submitting two sealed streams and then close produces exactly two
completion signals, in submission order, each emitted after that
stream's decode has run to exhaustion and before the next message is
touched; and a close that arrives before any submit makes the loop exit
with zero streams decoded. The worker loop is modelled sequentially on
the FIFO message order the channel guarantees. -/
theorem pipeline_order (es1 es2 : List Entry)
    (h1 : es1.all Entry.wf = true) (h2 : es2.all Entry.wf = true) :
    backendRun [Message.setDisplayList (buildStream es1),
        Message.setDisplayList (buildStream es2), Message.close]
      = ([Event.decoded (es1.map entryView,
            List.replicate DisplayListItem.maxSize 0),
          Event.completionSignal,
          Event.decoded (es2.map entryView,
            List.replicate DisplayListItem.maxSize 0),
          Event.completionSignal], true)
    ∧ (∀ rest, backendRun (Message.close :: rest) = ([], true)) := by
  constructor
  · have hw1 : fullWalk (buildStream es1)
        = some (es1.map entryView, List.replicate DisplayListItem.maxSize 0) := by
      rw [buildStream_eq]
      exact fullWalk_encode es1 h1
    have hw2 : fullWalk (buildStream es2)
        = some (es2.map entryView, List.replicate DisplayListItem.maxSize 0) := by
      rw [buildStream_eq]
      exact fullWalk_encode es2 h2
    simp [backendRun, hw1, hw2]
  · intro rest
    rfl

theorem pipeline_order_witness :
    (([Entry.item DisplayListItem.listItem] : List Entry).all Entry.wf = true
      ∧ ([Entry.sublist []] : List Entry).all Entry.wf = true)
    ∧ backendRun [Message.setDisplayList (buildStream
          [Entry.item DisplayListItem.listItem]),
        Message.setDisplayList (buildStream [Entry.sublist []]), Message.close]
      = ([Event.decoded ([Entry.item DisplayListItem.listItem].map entryView,
            List.replicate DisplayListItem.maxSize 0),
          Event.completionSignal,
          Event.decoded ([Entry.sublist []].map entryView,
            List.replicate DisplayListItem.maxSize 0),
          Event.completionSignal], true)
    ∧ backendRun [Message.close] = ([], true) :=
  ⟨⟨by decide, by decide⟩,
    (pipeline_order [Entry.item DisplayListItem.listItem] [Entry.sublist []]
      (by decide) (by decide)).1,
    (pipeline_order [Entry.item DisplayListItem.listItem] [Entry.sublist []]
      (by decide) (by decide)).2 []⟩

/-- C9: the outcome of next_payload_as_item does not depend on the
scratch record passed in - any two scratch values give the same decoded
record (or the same stop), the same skip range and the same remaining
view, because the peek overwrites the scratch completely before it is
read. -/
theorem scratch_independent (s1 s2 : DisplayListItem) (data : Bytes) :
    nextPayloadAsItem s1 data = nextPayloadAsItem s2 data := rfl

/-- C10: the nested decode of Backend::process tolerates an empty skip
range: the count peek is skipped, the count stays zero, zero nested
items are decoded and nothing is read from the empty slice. -/
theorem empty_skip_range :
    readCount [] = some (0, [])
    ∧ processSkip [] = some (0, [])
    ∧ ∀ data : Bytes, decodeN 0 data = some ([], data) :=
  ⟨rfl, rfl, fun _ => rfl⟩
